import Mathlib

/-!
Shallow embedding of the rendering core of the rust-tracer repository.

Floating-point doubles are modelled as real numbers; the random draws that
the source obtains from its global generator (rand, random_in_unit_sphere)
are passed as explicit arguments, and the per-bounce randomness of the
recursive integrator is supplied by an explicit stream indexed by depth.
Each definition is translated from the named source function.
-/

noncomputable section

namespace RT

/-- Three-component real vector, embedding the f64 vector Vec3 of
src/src/vec3.rs. -/
@[ext]
structure Vec3 where
  x : ℝ
  y : ℝ
  z : ℝ

/-- Componentwise addition (impl Add for Vec3 in src/src/vec3.rs). -/
instance : Add Vec3 := ⟨fun a b => ⟨a.x + b.x, a.y + b.y, a.z + b.z⟩⟩

/-- Componentwise subtraction (impl Sub for Vec3). -/
instance : Sub Vec3 := ⟨fun a b => ⟨a.x - b.x, a.y - b.y, a.z - b.z⟩⟩

/-- Componentwise multiplication (impl Mul for Vec3). -/
instance : Mul Vec3 := ⟨fun a b => ⟨a.x * b.x, a.y * b.y, a.z * b.z⟩⟩

/-- Negation (impl Neg for Vec3). -/
instance : Neg Vec3 := ⟨fun a => ⟨-a.x, -a.y, -a.z⟩⟩

/-- Scalar multiplication (impl Mul of f64 and Vec3, both orders agree). -/
instance : SMul ℝ Vec3 := ⟨fun c a => ⟨c * a.x, c * a.y, c * a.z⟩⟩

@[simp] theorem Vec3.add_x (a b : Vec3) : (a + b).x = a.x + b.x := rfl

@[simp] theorem Vec3.add_y (a b : Vec3) : (a + b).y = a.y + b.y := rfl

@[simp] theorem Vec3.add_z (a b : Vec3) : (a + b).z = a.z + b.z := rfl

@[simp] theorem Vec3.sub_x (a b : Vec3) : (a - b).x = a.x - b.x := rfl

@[simp] theorem Vec3.sub_y (a b : Vec3) : (a - b).y = a.y - b.y := rfl

@[simp] theorem Vec3.sub_z (a b : Vec3) : (a - b).z = a.z - b.z := rfl

@[simp] theorem Vec3.mul_x (a b : Vec3) : (a * b).x = a.x * b.x := rfl

@[simp] theorem Vec3.mul_y (a b : Vec3) : (a * b).y = a.y * b.y := rfl

@[simp] theorem Vec3.mul_z (a b : Vec3) : (a * b).z = a.z * b.z := rfl

@[simp] theorem Vec3.neg_x (a : Vec3) : (-a).x = -a.x := rfl

@[simp] theorem Vec3.neg_y (a : Vec3) : (-a).y = -a.y := rfl

@[simp] theorem Vec3.neg_z (a : Vec3) : (-a).z = -a.z := rfl

@[simp] theorem Vec3.smul_x (c : ℝ) (a : Vec3) : (c • a).x = c * a.x := rfl

@[simp] theorem Vec3.smul_y (c : ℝ) (a : Vec3) : (c • a).y = c * a.y := rfl

@[simp] theorem Vec3.smul_z (c : ℝ) (a : Vec3) : (c • a).z = c * a.z := rfl

/-- The constant Vec3::zeros() = (0, 0, 0). -/
def Vec3.zeros : Vec3 := ⟨0, 0, 0⟩

/-- The constant Vec3::ones() = (1, 1, 1). -/
def Vec3.ones : Vec3 := ⟨1, 1, 1⟩

/-- Dot product (Vec3::dot). -/
def Vec3.dot (a b : Vec3) : ℝ := a.x * b.x + a.y * b.y + a.z * b.z

/-- Squared norm (Vec3::norm2 = self.dot(self)). -/
def Vec3.norm2 (a : Vec3) : ℝ := a.dot a

/-- Euclidean norm (Vec3::norm = sqrt of norm2). -/
def Vec3.norm (a : Vec3) : ℝ := Real.sqrt a.norm2

/-- Componentwise division of a vector by a scalar
(impl Div of Vec3 by f64). -/
def Vec3.divScalar (a : Vec3) (c : ℝ) : Vec3 := ⟨a.x / c, a.y / c, a.z / c⟩

/-- Vec3::unitize = self / self.norm(). -/
def Vec3.unitize (a : Vec3) : Vec3 := a.divScalar a.norm

/-- Vec3::lerp: (1 - t) * self + t * b. -/
def Vec3.lerp (a b : Vec3) (t : ℝ) : Vec3 := (1 - t) • a + t • b

/-- Vec3::reflect: self - 2 * self.dot(n) * n. -/
def Vec3.reflect (v n : Vec3) : Vec3 := v - (2 * v.dot n) • n

/-- Vec3::refract from src/src/vec3.rs: unitize the receiver, compute
dt = uv.dot(n) and disc = 1 - ni_over_nt^2 * (1 - dt^2); if disc > 0
return the refracted direction, else None. -/
def Vec3.refract (v n : Vec3) (niOverNt : ℝ) : Option Vec3 :=
  let uv := v.unitize
  let dt := uv.dot n
  let disc := 1 - niOverNt ^ 2 * (1 - dt ^ 2)
  if disc > 0 then
    some (niOverNt • (uv - dt • n) - Real.sqrt disc • n)
  else
    none

/-- Vec3::powf: componentwise real power (f64::powf). -/
def Vec3.powf (a : Vec3) (n : ℝ) : Vec3 := ⟨a.x ^ n, a.y ^ n, a.z ^ n⟩

/-- Ray of src/src/ray.rs: origin plus direction. -/
structure Ray where
  origin : Vec3
  direction : Vec3

/-- Ray::point: origin + t * direction. -/
def Ray.point (r : Ray) (t : ℝ) : Vec3 := r.origin + t • r.direction

/-- The Material enum of src/src/matenum.rs: a closed set of three
variants. -/
inductive Material where
  | lambertian (albedo : Vec3)
  | metal (albedo : Vec3) (fuzz : ℝ)
  | dielectric (refIdx : ℝ)

/-- Metal::new of src/src/material.rs: stores albedo unchanged and
fuzz.min(1.0). -/
def metalNew (albedo : Vec3) (fuzz : ℝ) : Material :=
  Material.metal albedo (min fuzz 1)

/-- The metal constructor of src/src/matenum.rs: stores both arguments
unchanged. -/
def matenumMetal (albedo : Vec3) (fuzz : ℝ) : Material :=
  Material.metal albedo fuzz

/-- The fuzz stored in a Material, 0 for the other variants. -/
def Material.fuzzOf : Material → ℝ
  | Material.metal _ fuzz => fuzz
  | _ => 0

/-- HitRecord of src/src/hitrecord.rs: ray parameter, hit point, normal
and the struck material. -/
structure HitRecord where
  t : ℝ
  p : Vec3
  normal : Vec3
  mat : Material

/-- Sphere of src/src/shape.rs: center, radius and material. -/
structure Sphere where
  center : Vec3
  radius : ℝ
  mat : Material

/-- Sphere::hit of src/src/shape.rs: quadratic discriminant test; when the
discriminant is positive try the root (-b - sqrt disc) / a, then
(-b + sqrt disc) / a, accepting a root t exactly when
t_min < t < t_max; the record carries point = ray.point(t) and
normal = (point - center) / radius. -/
def sphereHit (s : Sphere) (ray : Ray) (tMin tMax : ℝ) : Option HitRecord :=
  let oc := ray.origin - s.center
  let a := ray.direction.dot ray.direction
  let b := oc.dot ray.direction
  let c := oc.dot oc - s.radius ^ 2
  let disc := b ^ 2 - a * c
  if disc > 0 then
    let temp := (-b - Real.sqrt disc) / a
    if temp < tMax ∧ temp > tMin then
      let p := ray.point temp
      some ⟨temp, p, (p - s.center).divScalar s.radius, s.mat⟩
    else
      let temp2 := (-b + Real.sqrt disc) / a
      if temp2 < tMax ∧ temp2 > tMin then
        let p := ray.point temp2
        some ⟨temp2, p, (p - s.center).divScalar s.radius, s.mat⟩
      else
        none
  else
    none

/-- The loop body state of HittableList::hit of src/src/shape.rs: scan the
remaining items, keeping the best record so far and querying each item
with the window (t_min, closest_so_far). -/
def hittableListHitAux (ray : Ray) (tMin : ℝ) :
    List Sphere → ℝ → Option HitRecord → Option HitRecord
  | [], _, rec => rec
  | s :: rest, closest, rec =>
    match sphereHit s ray tMin closest with
    | some tempRec => hittableListHitAux ray tMin rest tempRec.t (some tempRec)
    | none => hittableListHitAux ray tMin rest closest rec

/-- HittableList::hit of src/src/shape.rs: linear scan starting from no
record and closest_so_far = t_max. -/
def hittableListHit (items : List Sphere) (ray : Ray) (tMin tMax : ℝ) :
    Option HitRecord :=
  hittableListHitAux ray tMin items tMax none

/-- The schlick reflectance approximation of src/src/material.rs. -/
def schlick (cosine refIdx : ℝ) : ℝ :=
  let r0 := ((1 - refIdx) / (1 + refIdx)) ^ 2
  r0 + (1 - r0) * (1 - cosine) ^ 5

/-- The (outward_normal, ni_over_nt, cosine) triple chosen by
Dielectric::scatter of src/src/material.rs according to the sign of
direction.dot(normal). -/
def dielParams (refIdx : ℝ) (rIn : Ray) (rec : HitRecord) : Vec3 × ℝ × ℝ :=
  let dirDotNormal := rIn.direction.dot rec.normal
  if dirDotNormal > 0 then
    (-rec.normal, refIdx, refIdx * dirDotNormal / rIn.direction.norm)
  else
    (rec.normal, 1 / refIdx, -dirDotNormal / rIn.direction.norm)

/-- Material::scatter of src/src/matenum.rs (the trait impls in
src/src/material.rs are line-for-line the same).  The value that
random_in_unit_sphere() returned is passed as rus, and the value that
rand() returned is passed as randDraw. -/
def scatter (m : Material) (rIn : Ray) (rec : HitRecord) (rus : Vec3)
    (randDraw : ℝ) : Option (Vec3 × Ray) :=
  match m with
  | Material.lambertian albedo =>
    let point := rec.p
    let target := point + rec.normal + rus
    let scattered := Ray.mk point (target - point)
    some (albedo, scattered)
  | Material.metal albedo fuzz =>
    let reflected := (rIn.direction.unitize).reflect rec.normal
    let scattered := Ray.mk rec.p (reflected + fuzz • rus)
    if scattered.direction.dot rec.normal > 0 then
      some (albedo, scattered)
    else
      none
  | Material.dielectric refIdx =>
    let reflected := rIn.direction.reflect rec.normal
    let params := dielParams refIdx rIn rec
    let direction :=
      match rIn.direction.refract params.1 params.2.1 with
      | some refracted =>
        if randDraw < schlick params.2.2 refIdx then reflected else refracted
      | none => reflected
    some (Vec3.ones, Ray.mk rec.p direction)

/-- The upper hit bound f64::MAX used by the color functions, embedded as
the exact real value of the largest finite double. -/
def f64MAX : ℝ := 2 ^ 1024 - 2 ^ 971

/-- The sky gradient returned by color on a miss: linear interpolation
between (1,1,1) and (0.5,0.7,1.0) at 0.5 * (unit_direction.y + 1). -/
def skyColor (ray : Ray) : Vec3 :=
  Vec3.lerp Vec3.ones ⟨0.5, 0.7, 1.0⟩ (0.5 * ((ray.direction.unitize).y + 1))

/-- The recursive integrator color of src/src/main.rs (and of
src/src/bin/raytracer.rs): test the scene with window (0.001, f64::MAX);
on a miss return the sky gradient; on a hit call scatter, returning black
when it fails and attenuation times the recursive radiance of the
scattered ray when it succeeds at depth < 50, black at depth >= 50.
The stream g supplies the random draws consumed by the scatter call at
each depth. -/
def color (g : ℕ → Vec3 × ℝ) (world : List Sphere) (ray : Ray) (depth : ℕ) :
    Vec3 :=
  match hittableListHit world ray 0.001 f64MAX with
  | some rec =>
    match scatter rec.mat ray rec (g depth).1 (g depth).2 with
    | some (attenuation, scattered) =>
      if _h : depth < 50 then
        attenuation * color g world scattered (depth + 1)
      else
        Vec3.zeros
    | none => Vec3.zeros
  | none => skyColor ray
termination_by 50 - depth
decreasing_by omega

/-- Fuel-instrumented variant of color: identical case analysis, but a
recursive call consumes one unit of fuel and exhausted fuel is reported
as none.  Used to bound the recursion depth of color. -/
def colorFuel (fuel : ℕ) (g : ℕ → Vec3 × ℝ) (world : List Sphere)
    (ray : Ray) (depth : ℕ) : Option Vec3 :=
  match hittableListHit world ray 0.001 f64MAX with
  | some rec =>
    match scatter rec.mat ray rec (g depth).1 (g depth).2 with
    | some (attenuation, scattered) =>
      if depth < 50 then
        match fuel with
        | 0 => none
        | fuel' + 1 =>
          (colorFuel fuel' g world scattered (depth + 1)).map
            (fun c => attenuation * c)
      else
        some Vec3.zeros
    | none => some Vec3.zeros
  | none => some (skyColor ray)

/-- The saturating f64-to-u8 cast of rust (value as u8): truncate toward
zero and clamp into [0, 255].  For every real x this equals the floor
clamped into [0, 255]. -/
def rustAsU8 (x : ℝ) : ℤ := max 0 (min 255 ⌊x⌋)

/-- The From Vec3 conversion of src/src/colorvec3.rs (and the ColorVec
impl of src/src/vec3.rs): each channel is multiplied by 255 and cast to
u8. -/
def colorVec3OfVec3 (v : Vec3) : ℤ × ℤ × ℤ :=
  (rustAsU8 (255 * v.x), rustAsU8 (255 * v.y), rustAsU8 (255 * v.z))

/-- A constant random-draw stream, used only as a concrete input when
evaluating the integrator at specific arguments. -/
def gZero : ℕ → Vec3 × ℝ := fun _ => (Vec3.zeros, 0)

/-- Concrete evaluation fixture: the unit sphere at the origin with a
lambertian material. -/
def unitSphereAtOrigin : Sphere := ⟨Vec3.zeros, 1, Material.lambertian Vec3.zeros⟩

/-- Concrete evaluation fixture: a ray from (0,0,-2) along +z. -/
def zAxisRay : Ray := ⟨⟨0, 0, -2⟩, ⟨0, 0, 1⟩⟩

/-- Concrete evaluation fixture: the hit record produced by firing
zAxisRay at unitSphereAtOrigin. -/
def zHitRec : HitRecord := ⟨1, ⟨0, 0, -1⟩, ⟨0, 0, -1⟩, Material.lambertian Vec3.zeros⟩

/-- Concrete evaluation fixture: a unit sphere centered at (0,0,1), which
overlaps unitSphereAtOrigin along zAxisRay. -/
def shiftedSphere : Sphere := ⟨⟨0, 0, 1⟩, 1, Material.lambertian Vec3.zeros⟩

/-! Basic vector lemmas shared by several claims. -/

theorem Vec3.dot_self_nonneg (v : Vec3) : 0 ≤ v.dot v := by
  unfold Vec3.dot
  nlinarith [mul_self_nonneg v.x, mul_self_nonneg v.y, mul_self_nonneg v.z]

theorem Vec3.dot_self_pos (v : Vec3) (h : v ≠ Vec3.zeros) : 0 < v.dot v := by
  rcases (Vec3.dot_self_nonneg v).lt_or_eq with h1 | h1
  · exact h1
  · exfalso
    apply h
    have hd : v.x * v.x + v.y * v.y + v.z * v.z = 0 := by
      have := h1.symm
      simpa [Vec3.dot] using this
    have hx : v.x = 0 := by nlinarith [mul_self_nonneg v.x, mul_self_nonneg v.y, mul_self_nonneg v.z]
    have hy : v.y = 0 := by nlinarith [mul_self_nonneg v.x, mul_self_nonneg v.y, mul_self_nonneg v.z]
    have hz : v.z = 0 := by nlinarith [mul_self_nonneg v.x, mul_self_nonneg v.y, mul_self_nonneg v.z]
    ext <;> simp [Vec3.zeros, hx, hy, hz]

theorem Vec3.norm_smul_of_pos (c : ℝ) (v : Vec3) (hc : 0 < c) :
    (c • v).norm = c * v.norm := by
  unfold Vec3.norm Vec3.norm2
  have h2 : (c • v).dot (c • v) = c ^ 2 * v.dot v := by
    simp [Vec3.dot]
    ring
  rw [h2, Real.sqrt_mul (sq_nonneg c), Real.sqrt_sq hc.le]

theorem Vec3.unitize_smul (c : ℝ) (v : Vec3) (hc : 0 < c) :
    (c • v).unitize = v.unitize := by
  unfold Vec3.unitize Vec3.divScalar
  rw [Vec3.norm_smul_of_pos c v hc]
  ext <;> exact mul_div_mul_left _ _ hc.ne'

theorem Vec3.unitize_of_norm_one (v : Vec3) (h : v.norm = 1) : v.unitize = v := by
  unfold Vec3.unitize Vec3.divScalar
  rw [h]
  ext <;> simp

/-- Claim C10: refract is scale-invariant in its incident vector because it
unitizes the receiver internally: for every nonzero v, every n, every ratio
and every positive scalar c, refract(c * v, n, ni_over_nt) equals
refract(v, n, ni_over_nt). -/
theorem C10_refract_scale_invariant (v n : Vec3) (niOverNt c : ℝ)
    (_hv : v ≠ Vec3.zeros) (hc : 0 < c) :
    Vec3.refract (c • v) n niOverNt = Vec3.refract v n niOverNt := by
  unfold Vec3.refract
  rw [Vec3.unitize_smul c v hc]

theorem C10_refract_scale_invariant_witness :
    (⟨0, 0, 1⟩ : Vec3) ≠ Vec3.zeros ∧ (0:ℝ) < 2 ∧
      Vec3.refract ((2:ℝ) • ⟨0, 0, 1⟩) ⟨0, 1, 0⟩ 2 =
        Vec3.refract ⟨0, 0, 1⟩ ⟨0, 1, 0⟩ 2 := by
  refine ⟨?_, by norm_num, ?_⟩
  · intro h
    have := congrArg Vec3.z h
    simp [Vec3.zeros] at this
  · exact C10_refract_scale_invariant ⟨0, 0, 1⟩ ⟨0, 1, 0⟩ 2 2
      (by intro h; have := congrArg Vec3.z h; simp [Vec3.zeros] at this)
      (by norm_num)

/-- Claim C5 counterexample: the incident vector (0,0,1) and normal (0,0,1)
are both unit, yet refract((0,0,1), (0,0,1), 1) returns some (0,0,-1), the
reflection, not the incident vector. -/
theorem C5_counterexample :
    Vec3.norm ⟨0, 0, 1⟩ = 1 ∧
    Vec3.refract ⟨0, 0, 1⟩ ⟨0, 0, 1⟩ 1 = some ⟨0, 0, -1⟩ ∧
    some (⟨0, 0, -1⟩ : Vec3) ≠ some (⟨0, 0, 1⟩ : Vec3) := by
  have hn : Vec3.norm ⟨0, 0, 1⟩ = 1 := by
    unfold Vec3.norm Vec3.norm2 Vec3.dot
    norm_num
  have hu : Vec3.unitize ⟨0, 0, 1⟩ = ⟨0, 0, 1⟩ :=
    Vec3.unitize_of_norm_one _ hn
  refine ⟨hn, ?_, ?_⟩
  · unfold Vec3.refract
    rw [hu]
    norm_num [Vec3.dot]
    ext <;> norm_num [Real.sqrt_one]
  · intro h
    have h2 : (⟨0, 0, -1⟩ : Vec3) = ⟨0, 0, 1⟩ := Option.some.inj h
    have := congrArg Vec3.z h2
    norm_num at this

/-- Claim C5 amended: refract computes dt = uv . n for uv the unitized
incident vector and disc = 1 - ni_over_nt^2 * (1 - dt^2), returning
Some(ni_over_nt * (uv - n * dt) - n * sqrt disc) exactly when disc > 0 and
None otherwise; for ni_over_nt = 1, a unit incident vector v and any
normal n with v . n < 0 (the incident direction pointing against the
normal) it returns Some v, while for v . n > 0 it returns the reflection
and for v . n = 0 it returns None. -/
theorem C5_refract_amended (v n : Vec3) (niOverNt : ℝ) :
    (1 - niOverNt ^ 2 * (1 - (v.unitize.dot n) ^ 2) > 0 →
      Vec3.refract v n niOverNt =
        some (niOverNt • (v.unitize - (v.unitize.dot n) • n) -
          Real.sqrt (1 - niOverNt ^ 2 * (1 - (v.unitize.dot n) ^ 2)) • n)) ∧
    (1 - niOverNt ^ 2 * (1 - (v.unitize.dot n) ^ 2) ≤ 0 →
      Vec3.refract v n niOverNt = none) ∧
    (v.norm = 1 → v.dot n < 0 → Vec3.refract v n 1 = some v) ∧
    (v.norm = 1 → v.dot n > 0 →
      Vec3.refract v n 1 = some (v - (2 * v.dot n) • n)) ∧
    (v.norm = 1 → v.dot n = 0 → Vec3.refract v n 1 = none) := by
  refine ⟨?_, ?_, ?_, ?_, ?_⟩
  · intro h
    unfold Vec3.refract
    rw [if_pos h]
  · intro h
    unfold Vec3.refract
    rw [if_neg (not_lt.mpr h)]
  · intro h1 h2
    have hu : v.unitize = v := Vec3.unitize_of_norm_one v h1
    unfold Vec3.refract
    rw [hu]
    dsimp only
    have hd : 1 - (1:ℝ) ^ 2 * (1 - (v.dot n) ^ 2) = (v.dot n) ^ 2 := by ring
    rw [hd, if_pos (by nlinarith [h2] : (0:ℝ) < (v.dot n) ^ 2)]
    rw [Real.sqrt_sq_eq_abs, abs_of_neg h2]
    congr 1
    ext <;> simp
  · intro h1 h2
    have hu : v.unitize = v := Vec3.unitize_of_norm_one v h1
    unfold Vec3.refract
    rw [hu]
    dsimp only
    have hd : 1 - (1:ℝ) ^ 2 * (1 - (v.dot n) ^ 2) = (v.dot n) ^ 2 := by ring
    rw [hd, if_pos (by nlinarith [h2] : (0:ℝ) < (v.dot n) ^ 2)]
    rw [Real.sqrt_sq_eq_abs, abs_of_pos h2]
    congr 1
    ext <;> simp <;> ring
  · intro h1 h2
    have hu : v.unitize = v := Vec3.unitize_of_norm_one v h1
    unfold Vec3.refract
    rw [hu]
    dsimp only
    have hd : 1 - (1:ℝ) ^ 2 * (1 - (v.dot n) ^ 2) = (v.dot n) ^ 2 := by ring
    rw [hd, if_neg (by rw [h2]; norm_num)]

theorem C5_refract_amended_witness :
    Vec3.norm ⟨0, 0, -1⟩ = 1 ∧ Vec3.dot ⟨0, 0, -1⟩ ⟨0, 0, 1⟩ < 0 ∧
      Vec3.refract ⟨0, 0, -1⟩ ⟨0, 0, 1⟩ 1 = some ⟨0, 0, -1⟩ := by
  have hn : Vec3.norm ⟨0, 0, -1⟩ = 1 := by
    unfold Vec3.norm Vec3.norm2 Vec3.dot
    norm_num
  have hd : Vec3.dot ⟨0, 0, -1⟩ ⟨0, 0, 1⟩ < 0 := by norm_num [Vec3.dot]
  exact ⟨hn, hd, (C5_refract_amended ⟨0, 0, -1⟩ ⟨0, 0, 1⟩ 1).2.2.1 hn hd⟩

/-- Claim C6 counterexample: Metal::new with fuzz argument -2 stores fuzz
-2, which is not in the interval [0, 1]. -/
theorem C6_counterexample :
    (metalNew ⟨1, 1, 1⟩ (-2)).fuzzOf = -2 ∧
    ¬ (0 ≤ (metalNew ⟨1, 1, 1⟩ (-2)).fuzzOf ∧
        (metalNew ⟨1, 1, 1⟩ (-2)).fuzzOf ≤ 1) := by
  have h : (metalNew ⟨1, 1, 1⟩ (-2)).fuzzOf = -2 := by
    simp [metalNew, Material.fuzzOf, min_def]
    norm_num
  refine ⟨h, ?_⟩
  rw [h]
  norm_num

/-- Claim C6 amended: Metal::new of src/src/material.rs stores
min(fuzz, 1.0): the stored fuzz is clamped to at most 1.0, and lies in
[0, 1] whenever the fuzz argument is nonnegative, but a negative argument
is stored unchanged; the metal constructor of src/src/matenum.rs applies no
clamping at all. -/
theorem C6_metal_fuzz_amended (albedo : Vec3) (fuzz : ℝ) :
    (metalNew albedo fuzz).fuzzOf = min fuzz 1 ∧
    (metalNew albedo fuzz).fuzzOf ≤ 1 ∧
    (0 ≤ fuzz → 0 ≤ (metalNew albedo fuzz).fuzzOf ∧
      (metalNew albedo fuzz).fuzzOf ≤ 1) ∧
    (matenumMetal albedo fuzz).fuzzOf = fuzz := by
  refine ⟨rfl, min_le_right fuzz 1, fun h0 => ⟨?_, min_le_right fuzz 1⟩, rfl⟩
  exact le_min h0 zero_le_one

theorem C6_metal_fuzz_amended_witness :
    (0:ℝ) ≤ 1 / 2 ∧
      (metalNew Vec3.zeros (1 / 2)).fuzzOf = min (1 / 2) 1 ∧
      0 ≤ (metalNew Vec3.zeros (1 / 2)).fuzzOf := by
  refine ⟨by norm_num, (C6_metal_fuzz_amended Vec3.zeros (1 / 2)).1, ?_⟩
  exact ((C6_metal_fuzz_amended Vec3.zeros (1 / 2)).2.2.1 (by norm_num)).1

/-- Claim C7: Metal scatter reflects the unitized incoming direction about
the hit normal, perturbs it by fuzz * random_in_unit_sphere(), and returns
Some((albedo, scattered)) exactly when the scattered direction has positive
dot product with the hit normal, None (absorption) otherwise. -/
theorem C7_metal_scatter (albedo : Vec3) (fuzz : ℝ) (rIn : Ray)
    (rec : HitRecord) (rus : Vec3) (randDraw : ℝ) :
    ((((rIn.direction.unitize).reflect rec.normal) + fuzz • rus).dot
        rec.normal > 0 →
      scatter (Material.metal albedo fuzz) rIn rec rus randDraw =
        some (albedo, Ray.mk rec.p
          (((rIn.direction.unitize).reflect rec.normal) + fuzz • rus))) ∧
    (¬ ((((rIn.direction.unitize).reflect rec.normal) + fuzz • rus).dot
        rec.normal > 0) →
      scatter (Material.metal albedo fuzz) rIn rec rus randDraw = none) := by
  constructor
  · intro h
    simp only [scatter]
    rw [if_pos h]
  · intro h
    simp only [scatter]
    rw [if_neg h]

theorem C7_metal_scatter_witness :
    ((((⟨0, 0, -1⟩ : Vec3).unitize).reflect ⟨0, 0, 1⟩) +
        (0:ℝ) • Vec3.zeros).dot ⟨0, 0, 1⟩ > 0 ∧
      scatter (Material.metal Vec3.ones 0)
          ⟨⟨0, 0, 2⟩, ⟨0, 0, -1⟩⟩
          ⟨1, Vec3.zeros, ⟨0, 0, 1⟩, Material.lambertian Vec3.zeros⟩
          Vec3.zeros 0 =
        some (Vec3.ones, Ray.mk Vec3.zeros ⟨0, 0, 1⟩) := by
  have hn : Vec3.norm ⟨0, 0, -1⟩ = 1 := by
    unfold Vec3.norm Vec3.norm2 Vec3.dot
    norm_num
  have hu : Vec3.unitize ⟨0, 0, -1⟩ = ⟨0, 0, -1⟩ :=
    Vec3.unitize_of_norm_one _ hn
  have hrefl : (((⟨0, 0, -1⟩ : Vec3).unitize).reflect ⟨0, 0, 1⟩) +
      (0:ℝ) • Vec3.zeros = ⟨0, 0, 1⟩ := by
    rw [hu]
    unfold Vec3.reflect Vec3.dot Vec3.zeros
    ext <;> norm_num
  have hdot : ((((⟨0, 0, -1⟩ : Vec3).unitize).reflect ⟨0, 0, 1⟩) +
      (0:ℝ) • Vec3.zeros).dot ⟨0, 0, 1⟩ > 0 := by
    rw [hrefl]
    norm_num [Vec3.dot]
  refine ⟨hdot, ?_⟩
  have := (C7_metal_scatter Vec3.ones 0 ⟨⟨0, 0, 2⟩, ⟨0, 0, -1⟩⟩
      ⟨1, Vec3.zeros, ⟨0, 0, 1⟩, Material.lambertian Vec3.zeros⟩
      Vec3.zeros 0).1 hdot
  rw [this, hrefl]

/-- Claim C8: Dielectric scatter always returns Some, with attenuation
exactly (1,1,1) and a scattered ray originating at the hit point; whenever
the refract attempt (with the outward normal and ratio chosen by the
entering/exiting test) fails, the scattered direction is the reflection of
the incoming direction about the hit normal. -/
theorem C8_dielectric_scatter (refIdx : ℝ) (rIn : Ray) (rec : HitRecord)
    (rus : Vec3) (randDraw : ℝ) :
    ∃ dir, scatter (Material.dielectric refIdx) rIn rec rus randDraw =
        some (Vec3.ones, Ray.mk rec.p dir) ∧
      (rIn.direction.refract (dielParams refIdx rIn rec).1
          (dielParams refIdx rIn rec).2.1 = none →
        dir = rIn.direction.reflect rec.normal) := by
  simp only [scatter]
  cases h : rIn.direction.refract (dielParams refIdx rIn rec).1
      (dielParams refIdx rIn rec).2.1 with
  | none =>
    exact ⟨rIn.direction.reflect rec.normal, rfl, fun _ => rfl⟩
  | some refracted =>
    exact ⟨if randDraw < schlick (dielParams refIdx rIn rec).2.2 refIdx then
      rIn.direction.reflect rec.normal else refracted, rfl,
      fun hc => Option.noConfusion hc⟩

theorem C8_dielectric_scatter_witness :
    Vec3.refract (⟨3, 0, -4⟩ : Vec3)
        (dielParams (1 / 2) ⟨Vec3.zeros, ⟨3, 0, -4⟩⟩
          ⟨1, Vec3.zeros, ⟨0, 0, 1⟩, Material.dielectric (1 / 2)⟩).1
        (dielParams (1 / 2) ⟨Vec3.zeros, ⟨3, 0, -4⟩⟩
          ⟨1, Vec3.zeros, ⟨0, 0, 1⟩, Material.dielectric (1 / 2)⟩).2.1 =
      none ∧
    scatter (Material.dielectric (1 / 2)) ⟨Vec3.zeros, ⟨3, 0, -4⟩⟩
        ⟨1, Vec3.zeros, ⟨0, 0, 1⟩, Material.dielectric (1 / 2)⟩
        Vec3.zeros 0 =
      some (Vec3.ones, Ray.mk Vec3.zeros ⟨3, 0, 4⟩) := by
  have hnorm : Vec3.norm ⟨3, 0, -4⟩ = 5 := by
    unfold Vec3.norm Vec3.norm2 Vec3.dot
    rw [show (3:ℝ) * 3 + 0 * 0 + -4 * -4 = 5 ^ 2 by norm_num]
    exact Real.sqrt_sq (by norm_num)
  have hparams : dielParams (1 / 2) ⟨Vec3.zeros, ⟨3, 0, -4⟩⟩
      ⟨1, Vec3.zeros, ⟨0, 0, 1⟩, Material.dielectric (1 / 2)⟩ =
      (⟨0, 0, 1⟩, 2, 4 / 5) := by
    unfold dielParams
    dsimp only
    rw [if_neg (by norm_num [Vec3.dot])]
    rw [hnorm]
    norm_num [Vec3.dot]
  have hrefr : Vec3.refract (⟨3, 0, -4⟩ : Vec3) ⟨0, 0, 1⟩ 2 = none := by
    unfold Vec3.refract
    dsimp only
    have hu : Vec3.unitize ⟨3, 0, -4⟩ = ⟨3 / 5, 0, -4 / 5⟩ := by
      unfold Vec3.unitize Vec3.divScalar
      rw [hnorm]
      ext <;> norm_num
    rw [hu]
    rw [if_neg (by norm_num [Vec3.dot])]
  obtain ⟨dir, h1, h2⟩ := C8_dielectric_scatter (1 / 2) ⟨Vec3.zeros, ⟨3, 0, -4⟩⟩
    ⟨1, Vec3.zeros, ⟨0, 0, 1⟩, Material.dielectric (1 / 2)⟩ Vec3.zeros 0
  have hnone : Vec3.refract (⟨3, 0, -4⟩ : Vec3)
      (dielParams (1 / 2) ⟨Vec3.zeros, ⟨3, 0, -4⟩⟩
        ⟨1, Vec3.zeros, ⟨0, 0, 1⟩, Material.dielectric (1 / 2)⟩).1
      (dielParams (1 / 2) ⟨Vec3.zeros, ⟨3, 0, -4⟩⟩
        ⟨1, Vec3.zeros, ⟨0, 0, 1⟩, Material.dielectric (1 / 2)⟩).2.1 = none := by
    rw [hparams]
    exact hrefr
  refine ⟨hnone, ?_⟩
  have hdir : dir = Vec3.reflect ⟨3, 0, -4⟩ ⟨0, 0, 1⟩ := h2 hnone
  have hrefl : Vec3.reflect (⟨3, 0, -4⟩ : Vec3) ⟨0, 0, 1⟩ = ⟨3, 0, 4⟩ := by
    unfold Vec3.reflect Vec3.dot
    ext <;> norm_num
  rw [h1, hdir, hrefl]

/-- Claim C9: per-channel quantization multiplies by 255 and truncates to
an integer (the floor, for in-range inputs, with no rounding), saturating
out-of-range values into [0, 255]; an averaged radiance of exactly (1,1,1)
quantizes to (255,255,255) after gamma correction by any positive gamma,
and (0,0,0) quantizes to (0,0,0). -/
theorem C9_quantization :
    (∀ x : ℝ, 0 ≤ x → x ≤ 1 → rustAsU8 (255 * x) = ⌊255 * x⌋) ∧
    (∀ x : ℝ, 0 ≤ rustAsU8 x ∧ rustAsU8 x ≤ 255) ∧
    (∀ gamma : ℝ, 0 < gamma →
      colorVec3OfVec3 (Vec3.powf Vec3.ones (1 / gamma)) = (255, 255, 255) ∧
      colorVec3OfVec3 (Vec3.powf Vec3.zeros (1 / gamma)) = (0, 0, 0)) := by
  have hb : ∀ x : ℝ, 0 ≤ x → x ≤ 1 → rustAsU8 (255 * x) = ⌊255 * x⌋ := by
    intro x h0 h1
    have hfl0 : (0:ℤ) ≤ ⌊255 * x⌋ := Int.floor_nonneg.mpr (by positivity)
    have hfl255 : ⌊255 * x⌋ ≤ 255 := by
      have hle : (255:ℝ) * x ≤ 255 := by nlinarith
      calc ⌊(255:ℝ) * x⌋ ≤ ⌊(255:ℝ)⌋ := Int.floor_mono hle
        _ = 255 := by norm_num
    unfold rustAsU8
    rw [min_eq_right hfl255, max_eq_right hfl0]
  refine ⟨hb, ?_, ?_⟩
  · intro x
    exact ⟨le_max_left 0 _, max_le (by norm_num) (min_le_left 255 _)⟩
  · intro gamma hg
    have hpow1 : Vec3.powf Vec3.ones (1 / gamma) = Vec3.ones := by
      unfold Vec3.powf Vec3.ones
      ext <;> simp [Real.one_rpow]
    have hpow0 : Vec3.powf Vec3.zeros (1 / gamma) = Vec3.zeros := by
      unfold Vec3.powf Vec3.zeros
      have hne : gamma⁻¹ ≠ 0 := inv_ne_zero hg.ne'
      ext <;> simp [one_div, Real.zero_rpow hne]
    constructor
    · rw [hpow1]
      unfold colorVec3OfVec3 Vec3.ones rustAsU8
      norm_num
    · rw [hpow0]
      unfold colorVec3OfVec3 Vec3.zeros rustAsU8
      norm_num

theorem C9_quantization_witness :
    ((0:ℝ) ≤ 1 / 2 ∧ (1 / 2 : ℝ) ≤ 1 ∧
      rustAsU8 (255 * (1 / 2)) = 127) ∧
    ((0:ℝ) < 2 ∧
      colorVec3OfVec3 (Vec3.powf Vec3.ones (1 / 2)) = (255, 255, 255)) := by
  constructor
  · refine ⟨by norm_num, by norm_num, ?_⟩
    rw [C9_quantization.1 (1 / 2) (by norm_num) (by norm_num)]
    rw [show (255:ℝ) * (1 / 2) = 127 + 1 / 2 by norm_num]
    rw [Int.floor_eq_iff]
    norm_num
  · exact ⟨by norm_num, (C9_quantization.2.2 2 (by norm_num)).1⟩

/-! Unfolding lemmas for the recursive integrator and the scene scan. -/

theorem hittableListHitAux_cons (ray : Ray) (tMin : ℝ) (s : Sphere)
    (rest : List Sphere) (closest : ℝ) (rec : Option HitRecord) :
    hittableListHitAux ray tMin (s :: rest) closest rec =
      match sphereHit s ray tMin closest with
      | some tempRec =>
        hittableListHitAux ray tMin rest tempRec.t (some tempRec)
      | none => hittableListHitAux ray tMin rest closest rec := rfl

theorem color_of_miss (g : ℕ → Vec3 × ℝ) (world : List Sphere) (ray : Ray)
    (depth : ℕ) (h : hittableListHit world ray 0.001 f64MAX = none) :
    color g world ray depth = skyColor ray := by
  rw [color.eq_def, h]

theorem color_of_absorbed (g : ℕ → Vec3 × ℝ) (world : List Sphere)
    (ray : Ray) (depth : ℕ) (rec : HitRecord)
    (h1 : hittableListHit world ray 0.001 f64MAX = some rec)
    (h2 : scatter rec.mat ray rec (g depth).1 (g depth).2 = none) :
    color g world ray depth = Vec3.zeros := by
  rw [color.eq_def, h1]
  dsimp only
  rw [h2]

theorem color_of_bounce (g : ℕ → Vec3 × ℝ) (world : List Sphere)
    (ray : Ray) (depth : ℕ) (rec : HitRecord) (att : Vec3) (sc : Ray)
    (h1 : hittableListHit world ray 0.001 f64MAX = some rec)
    (h2 : scatter rec.mat ray rec (g depth).1 (g depth).2 = some (att, sc))
    (h3 : depth < 50) :
    color g world ray depth = att * color g world sc (depth + 1) := by
  rw [color.eq_def, h1]
  dsimp only
  rw [h2]
  simp [h3]

theorem color_of_cutoff (g : ℕ → Vec3 × ℝ) (world : List Sphere)
    (ray : Ray) (depth : ℕ) (rec : HitRecord) (att : Vec3) (sc : Ray)
    (h1 : hittableListHit world ray 0.001 f64MAX = some rec)
    (h2 : scatter rec.mat ray rec (g depth).1 (g depth).2 = some (att, sc))
    (h3 : ¬ depth < 50) :
    color g world ray depth = Vec3.zeros := by
  rw [color.eq_def, h1]
  dsimp only
  rw [h2]
  simp [h3]

theorem colorFuel_complete (g : ℕ → Vec3 × ℝ) (world : List Sphere) :
    ∀ (fuel : ℕ) (ray : Ray) (depth : ℕ), 50 ≤ depth + fuel →
      colorFuel fuel g world ray depth = some (color g world ray depth) := by
  intro fuel
  induction fuel with
  | zero =>
    intro ray depth h
    rw [colorFuel.eq_def, color.eq_def]
    cases h1 : hittableListHit world ray 0.001 f64MAX with
    | none => rfl
    | some rec =>
      dsimp only
      cases h2 : scatter rec.mat ray rec (g depth).1 (g depth).2 with
      | none => rfl
      | some pr =>
        obtain ⟨att, sc⟩ := pr
        have h50 : ¬ depth < 50 := by omega
        simp [h50]
  | succ f ih =>
    intro ray depth h
    rw [colorFuel.eq_def, color.eq_def]
    cases h1 : hittableListHit world ray 0.001 f64MAX with
    | none => rfl
    | some rec =>
      dsimp only
      cases h2 : scatter rec.mat ray rec (g depth).1 (g depth).2 with
      | none => rfl
      | some pr =>
        obtain ⟨att, sc⟩ := pr
        by_cases h50 : depth < 50
        · simp only [if_pos h50, dif_pos h50]
          rw [ih sc (depth + 1) (by omega)]
          rfl
        · simp [h50]

/-- Concrete evaluation: firing zAxisRay at unitSphereAtOrigin with the
standard epsilon window accepts the smaller root t = 1 and produces
zHitRec. -/
theorem sphereHit_fixture :
    sphereHit unitSphereAtOrigin zAxisRay 0.001 f64MAX = some zHitRec := by
  unfold sphereHit unitSphereAtOrigin zAxisRay zHitRec f64MAX
  dsimp only
  norm_num [Vec3.dot, Vec3.zeros, Ray.point, Vec3.divScalar, Real.sqrt_one]
  ext <;> norm_num

/-- Concrete evaluation: the one-sphere scene hit by zAxisRay. -/
theorem hittableListHit_fixture :
    hittableListHit [unitSphereAtOrigin] zAxisRay 0.001 f64MAX =
      some zHitRec := by
  unfold hittableListHit
  rw [hittableListHitAux_cons, sphereHit_fixture]
  rfl

/-- Claim C1: the integrator radiance(ray, scene, depth) returns the sky
gradient (the linear interpolation between (1,1,1) and (0.5,0.7,1.0) at
parameter 0.5 * (unit_direction.y + 1)) when the scene reports no hit in
the window (0.001, f64::MAX); black when the struck material's scatter
returns None; and attenuation * radiance(scattered, scene, depth + 1)
when scatter returns Some((attenuation, scattered)) and depth < 50. -/
theorem C1_integrator_cases (g : ℕ → Vec3 × ℝ) (world : List Sphere)
    (ray : Ray) (depth : ℕ) :
    (hittableListHit world ray 0.001 f64MAX = none →
      color g world ray depth =
        Vec3.lerp Vec3.ones ⟨0.5, 0.7, 1.0⟩
          (0.5 * ((ray.direction.unitize).y + 1))) ∧
    (∀ rec, hittableListHit world ray 0.001 f64MAX = some rec →
      scatter rec.mat ray rec (g depth).1 (g depth).2 = none →
      color g world ray depth = Vec3.zeros) ∧
    (∀ rec att sc, hittableListHit world ray 0.001 f64MAX = some rec →
      scatter rec.mat ray rec (g depth).1 (g depth).2 = some (att, sc) →
      depth < 50 →
      color g world ray depth = att * color g world sc (depth + 1)) := by
  refine ⟨?_, ?_, ?_⟩
  · intro h
    exact color_of_miss g world ray depth h
  · intro rec h1 h2
    exact color_of_absorbed g world ray depth rec h1 h2
  · intro rec att sc h1 h2 h3
    exact color_of_bounce g world ray depth rec att sc h1 h2 h3

theorem C1_integrator_cases_witness :
    hittableListHit [] ⟨Vec3.zeros, ⟨0, 1, 0⟩⟩ 0.001 f64MAX = none ∧
      color gZero [] ⟨Vec3.zeros, ⟨0, 1, 0⟩⟩ 0 = ⟨0.5, 0.7, 1.0⟩ := by
  have hmiss : hittableListHit [] ⟨Vec3.zeros, ⟨0, 1, 0⟩⟩ 0.001 f64MAX =
      none := rfl
  refine ⟨hmiss, ?_⟩
  have hc := (C1_integrator_cases gZero [] ⟨Vec3.zeros, ⟨0, 1, 0⟩⟩ 0).1 hmiss
  rw [hc]
  have hu : Vec3.unitize ⟨0, 1, 0⟩ = ⟨0, 1, 0⟩ :=
    Vec3.unitize_of_norm_one _
      (by unfold Vec3.norm Vec3.norm2 Vec3.dot; norm_num [Real.sqrt_one])
  show Vec3.lerp Vec3.ones ⟨0.5, 0.7, 1.0⟩
      (0.5 * ((Vec3.unitize ⟨0, 1, 0⟩).y + 1)) = ⟨0.5, 0.7, 1.0⟩
  rw [hu]
  unfold Vec3.lerp Vec3.ones
  ext <;> norm_num

/-- Claim C4: the recursive radiance function terminates for every ray,
scene and starting depth: at depth >= 50 a surviving scatter returns black
regardless of attenuation, and a depth-0 call is fully computed by the
fuel-instrumented variant with 50 units of fuel, so the recursion depth
never exceeds 50 scatter events. -/
theorem C4_termination (g : ℕ → Vec3 × ℝ) (world : List Sphere) (ray : Ray)
    (depth : ℕ) :
    (∀ rec att sc, 50 ≤ depth →
      hittableListHit world ray 0.001 f64MAX = some rec →
      scatter rec.mat ray rec (g depth).1 (g depth).2 = some (att, sc) →
      color g world ray depth = Vec3.zeros) ∧
    (∀ fuel, 50 ≤ depth + fuel →
      colorFuel fuel g world ray depth = some (color g world ray depth)) := by
  constructor
  · intro rec att sc h50 h1 h2
    exact color_of_cutoff g world ray depth rec att sc h1 h2 (by omega)
  · intro fuel h
    exact colorFuel_complete g world fuel ray depth h

theorem C4_termination_witness :
    ((50:ℕ) ≤ 0 + 50 ∧
      colorFuel 50 gZero [] ⟨Vec3.zeros, ⟨0, 1, 0⟩⟩ 0 =
        some (color gZero [] ⟨Vec3.zeros, ⟨0, 1, 0⟩⟩ 0)) ∧
    ((50:ℕ) ≤ 50 ∧
      color gZero [unitSphereAtOrigin] zAxisRay 50 = Vec3.zeros) := by
  constructor
  · exact ⟨by norm_num,
      (C4_termination gZero [] ⟨Vec3.zeros, ⟨0, 1, 0⟩⟩ 0).2 50 (by norm_num)⟩
  · refine ⟨le_refl 50, ?_⟩
    exact (C4_termination gZero [unitSphereAtOrigin] zAxisRay 50).1
      zHitRec Vec3.zeros
      (Ray.mk zHitRec.p (zHitRec.p + zHitRec.normal + (gZero 50).1 - zHitRec.p))
      (le_refl 50) hittableListHit_fixture rfl

/-- Claim C3: Sphere::hit computes oc = origin - center, a = dir.dot dir,
b = oc.dot dir, c = oc.dot oc - radius^2 and discriminant = b^2 - a * c;
a nonpositive discriminant (including the exact-tangent case
discriminant = 0) yields no hit; otherwise the root (-b - sqrt disc) / a
is tried first and accepted exactly when t_min < t < t_max, then the root
(-b + sqrt disc) / a under the same bound, else no hit; an accepted record
has point = ray.point(t) and normal = (point - center) / radius, and for a
nonzero direction the first root tried is the smaller one. -/
theorem C3_sphere_hit (s : Sphere) (ray : Ray)
    (tMin tMax aQ bQ cQ discQ t1 t2 : ℝ) (_hr : 0 < s.radius)
    (ha : aQ = ray.direction.dot ray.direction)
    (hb : bQ = (ray.origin - s.center).dot ray.direction)
    (hc : cQ = (ray.origin - s.center).dot (ray.origin - s.center) -
      s.radius ^ 2)
    (hdisc : discQ = bQ ^ 2 - aQ * cQ)
    (ht1 : t1 = (-bQ - Real.sqrt discQ) / aQ)
    (ht2 : t2 = (-bQ + Real.sqrt discQ) / aQ) :
    (discQ ≤ 0 → sphereHit s ray tMin tMax = none) ∧
    (discQ > 0 → tMin < t1 → t1 < tMax →
      sphereHit s ray tMin tMax =
        some ⟨t1, ray.point t1,
          (ray.point t1 - s.center).divScalar s.radius, s.mat⟩) ∧
    (discQ > 0 → ¬ (tMin < t1 ∧ t1 < tMax) → tMin < t2 → t2 < tMax →
      sphereHit s ray tMin tMax =
        some ⟨t2, ray.point t2,
          (ray.point t2 - s.center).divScalar s.radius, s.mat⟩) ∧
    (discQ > 0 → ¬ (tMin < t1 ∧ t1 < tMax) → ¬ (tMin < t2 ∧ t2 < tMax) →
      sphereHit s ray tMin tMax = none) ∧
    (ray.direction ≠ Vec3.zeros → t1 ≤ t2) := by
  subst ha hb hc hdisc ht1 ht2
  unfold sphereHit
  dsimp only
  refine ⟨?_, ?_, ?_, ?_, ?_⟩
  · intro h
    rw [if_neg (not_lt.mpr h)]
  · intro h0 hgt hlt
    rw [if_pos h0, if_pos ⟨hlt, hgt⟩]
  · intro h0 hnot hgt hlt
    rw [if_pos h0, if_neg (fun hx => hnot ⟨hx.2, hx.1⟩), if_pos ⟨hlt, hgt⟩]
  · intro h0 hnot1 hnot2
    rw [if_pos h0, if_neg (fun hx => hnot1 ⟨hx.2, hx.1⟩),
      if_neg (fun hx => hnot2 ⟨hx.2, hx.1⟩)]
  · intro hd
    have hapos : 0 < ray.direction.dot ray.direction :=
      Vec3.dot_self_pos ray.direction hd
    have hnum : -((ray.origin - s.center).dot ray.direction) -
        Real.sqrt (((ray.origin - s.center).dot ray.direction) ^ 2 -
          ray.direction.dot ray.direction *
            ((ray.origin - s.center).dot (ray.origin - s.center) -
              s.radius ^ 2)) ≤
        -((ray.origin - s.center).dot ray.direction) +
        Real.sqrt (((ray.origin - s.center).dot ray.direction) ^ 2 -
          ray.direction.dot ray.direction *
            ((ray.origin - s.center).dot (ray.origin - s.center) -
              s.radius ^ 2)) := by
      have := Real.sqrt_nonneg (((ray.origin - s.center).dot
        ray.direction) ^ 2 - ray.direction.dot ray.direction *
          ((ray.origin - s.center).dot (ray.origin - s.center) -
            s.radius ^ 2))
      linarith
    exact div_le_div_of_nonneg_right hnum hapos.le |>.trans_eq rfl

theorem C3_sphere_hit_witness :
    ((0:ℝ) < 1 ∧ (0.001:ℝ) < 1 ∧ (1:ℝ) < f64MAX) ∧
      sphereHit unitSphereAtOrigin zAxisRay 0.001 f64MAX = some zHitRec := by
  have hr : (0:ℝ) < 1 := by norm_num
  have hfm : (1:ℝ) < f64MAX := by norm_num [f64MAX]
  refine ⟨⟨hr, by norm_num, hfm⟩, ?_⟩
  have hmain := (C3_sphere_hit unitSphereAtOrigin zAxisRay 0.001 f64MAX
    1 (-2) 3 1 1 3 (by norm_num [unitSphereAtOrigin])
    (by norm_num [unitSphereAtOrigin, zAxisRay, Vec3.dot])
    (by norm_num [unitSphereAtOrigin, zAxisRay, Vec3.dot, Vec3.zeros])
    (by norm_num [unitSphereAtOrigin, zAxisRay, Vec3.dot, Vec3.zeros])
    (by norm_num)
    (by norm_num [Real.sqrt_one])
    (by norm_num [Real.sqrt_one])).2.1 (by norm_num) (by norm_num) hfm
  rw [hmain]
  unfold zHitRec unitSphereAtOrigin zAxisRay
  norm_num [Ray.point, Vec3.divScalar, Vec3.zeros, Vec3.ext_iff]

/-! Lemmas about Sphere::hit needed for the nearest-hit property of the
scene scan. -/

theorem sphereHit_t_mem (s : Sphere) (ray : Ray) (tMin tMax : ℝ)
    (rec : HitRecord) (h : sphereHit s ray tMin tMax = some rec) :
    tMin < rec.t ∧ rec.t < tMax := by
  unfold sphereHit at h
  dsimp only at h
  split_ifs at h with h1 h2 h3
  · obtain rfl := Option.some.inj h
    exact ⟨h2.2, h2.1⟩
  · obtain rfl := Option.some.inj h
    exact ⟨h3.2, h3.1⟩

/-- Restricting the upper bound of the window: a hit in the window
(t_min, c) is exactly a hit in any wider window (t_min, t_max) whose t is
below c.  This is the key fact behind shrinking t_max to the closest t. -/
theorem sphereHit_restrict (s : Sphere) (ray : Ray) (tMin c tMax : ℝ)
    (hc : c ≤ tMax) (rec : HitRecord) :
    sphereHit s ray tMin c = some rec ↔
      sphereHit s ray tMin tMax = some rec ∧ rec.t < c := by
  unfold sphereHit
  dsimp only
  generalize hKg : (ray.origin - s.center).dot (ray.origin - s.center) -
    s.radius ^ 2 = K
  generalize hBg : (ray.origin - s.center).dot ray.direction = B
  generalize hAg : ray.direction.dot ray.direction = A
  have hA0 : 0 ≤ A := hAg ▸ Vec3.dot_self_nonneg ray.direction
  have himp : A = 0 → B = 0 := by
    rw [← hAg, ← hBg]
    intro h0
    have hdir : ray.direction = Vec3.zeros := by
      by_contra hne
      have := Vec3.dot_self_pos ray.direction hne
      linarith
    rw [hdir]
    simp [Vec3.dot, Vec3.zeros]
  have hApos : B ^ 2 - A * K > 0 → 0 < A := by
    intro hD
    rcases hA0.lt_or_eq with hp | hz
    · exact hp
    · rw [himp hz.symm, ← hz] at hD
      norm_num at hD
  constructor
  · intro h
    split_ifs at h with hD h1 h2
    · obtain rfl := Option.some.inj h
      refine ⟨?_, h1.1⟩
      rw [if_pos hD, if_pos ⟨lt_of_lt_of_le h1.1 hc, h1.2⟩]
    · obtain rfl := Option.some.inj h
      have h12 : (-B - Real.sqrt (B ^ 2 - A * K)) / A ≤
          (-B + Real.sqrt (B ^ 2 - A * K)) / A :=
        div_le_div_of_nonneg_right
          (by linarith [Real.sqrt_nonneg (B ^ 2 - A * K)]) (hApos hD).le
      have ht1c : (-B - Real.sqrt (B ^ 2 - A * K)) / A < c :=
        lt_of_le_of_lt h12 h2.1
      have ht1min : (-B - Real.sqrt (B ^ 2 - A * K)) / A ≤ tMin := by
        by_contra hgt
        exact h1 ⟨ht1c, not_le.mp hgt⟩
      refine ⟨?_, h2.1⟩
      rw [if_pos hD, if_neg (fun hx => absurd hx.2 (not_lt.mpr ht1min)),
        if_pos ⟨lt_of_lt_of_le h2.1 hc, h2.2⟩]
  · rintro ⟨h, hlt⟩
    split_ifs at h with hD h1 h2
    · obtain rfl := Option.some.inj h
      rw [if_pos hD, if_pos ⟨hlt, h1.2⟩]
    · obtain rfl := Option.some.inj h
      have h12 : (-B - Real.sqrt (B ^ 2 - A * K)) / A ≤
          (-B + Real.sqrt (B ^ 2 - A * K)) / A :=
        div_le_div_of_nonneg_right
          (by linarith [Real.sqrt_nonneg (B ^ 2 - A * K)]) (hApos hD).le
      have ht1c : (-B - Real.sqrt (B ^ 2 - A * K)) / A < c :=
        lt_of_le_of_lt h12 hlt
      have ht1min : (-B - Real.sqrt (B ^ 2 - A * K)) / A ≤ tMin := by
        by_contra hgt
        exact h1 ⟨lt_of_lt_of_le ht1c hc, not_le.mp hgt⟩
      rw [if_pos hD, if_neg (fun hx => absurd hx.2 (not_lt.mpr ht1min)),
        if_pos ⟨hlt, h2.2⟩]

theorem hittableListHitAux_some_ne_none (ray : Ray) (tMin : ℝ) :
    ∀ (rest : List Sphere) (closest : ℝ) (r : HitRecord),
      hittableListHitAux ray tMin rest closest (some r) ≠ none := by
  intro rest
  induction rest with
  | nil =>
    intro closest r h
    exact Option.noConfusion h
  | cons s rest ih =>
    intro closest r h
    rw [hittableListHitAux_cons] at h
    cases hq : sphereHit s ray tMin closest with
    | some r1 =>
      rw [hq] at h
      exact ih r1.t r1 h
    | none =>
      rw [hq] at h
      exact ih closest r h

theorem hittableListHit_none_iff (items : List Sphere) (ray : Ray)
    (tMin tMax : ℝ) :
    hittableListHit items ray tMin tMax = none ↔
      ∀ s ∈ items, sphereHit s ray tMin tMax = none := by
  induction items with
  | nil => simp [hittableListHit, hittableListHitAux]
  | cons s rest ih =>
    unfold hittableListHit at ih ⊢
    rw [hittableListHitAux_cons]
    cases hq : sphereHit s ray tMin tMax with
    | some r1 =>
      constructor
      · intro h
        exact absurd h (hittableListHitAux_some_ne_none ray tMin rest r1.t r1)
      · intro hall
        have hh := hall s (List.mem_cons_self s rest)
        rw [hq] at hh
        exact absurd hh (by simp)
    | none =>
      constructor
      · intro h s2 hs2
        rcases List.mem_cons.mp hs2 with rfl | hmem
        · exact hq
        · exact (ih.mp h) s2 hmem
      · intro hall
        exact ih.mpr (fun s2 hs2 => hall s2 (List.mem_cons_of_mem s hs2))

/-- Characterization of the scan loop from an arbitrary state: the result
is some rec exactly when either the accumulator is rec and every remaining
item misses the current window, or the remaining items split as
pre ++ s :: post where s hits with record rec, every earlier hit in the
window is strictly farther and every later hit is at least as far. -/
theorem hittableListHitAux_char (ray : Ray) (tMin : ℝ) :
    ∀ (rest : List Sphere) (closest : ℝ) (acc : Option HitRecord)
      (rec : HitRecord),
      hittableListHitAux ray tMin rest closest acc = some rec ↔
        ((acc = some rec ∧
          ∀ s2 ∈ rest, sphereHit s2 ray tMin closest = none) ∨
         ∃ pre s post, rest = pre ++ s :: post ∧
           sphereHit s ray tMin closest = some rec ∧
           (∀ s2 ∈ pre, ∀ rec2, sphereHit s2 ray tMin closest = some rec2 →
             rec.t < rec2.t) ∧
           (∀ s2 ∈ post, ∀ rec2, sphereHit s2 ray tMin closest = some rec2 →
             rec.t ≤ rec2.t)) := by
  intro rest
  induction rest with
  | nil =>
    intro closest acc rec
    constructor
    · intro h
      exact Or.inl ⟨h, by simp⟩
    · rintro (⟨hacc, _⟩ | ⟨pre, s, post, hdec, _⟩)
      · exact hacc
      · exact absurd hdec (by simp)
  | cons s1 rest ih =>
    intro closest acc rec
    rw [hittableListHitAux_cons]
    cases hq : sphereHit s1 ray tMin closest with
    | none =>
      dsimp only
      rw [ih closest acc rec]
      constructor
      · rintro (⟨hacc, hmiss⟩ | ⟨pre, s, post, hdec, hhit, hpre, hpost⟩)
        · refine Or.inl ⟨hacc, ?_⟩
          intro s2 hs2
          rcases List.mem_cons.mp hs2 with rfl | hmem
          · exact hq
          · exact hmiss s2 hmem
        · refine Or.inr ⟨s1 :: pre, s, post, by rw [hdec]; rfl, hhit, ?_,
            hpost⟩
          intro s2 hs2 rec2 hrec2
          rcases List.mem_cons.mp hs2 with rfl | hmem
          · rw [hq] at hrec2
            exact absurd hrec2 (by simp)
          · exact hpre s2 hmem rec2 hrec2
      · rintro (⟨hacc, hmiss⟩ | ⟨pre, s, post, hdec, hhit, hpre, hpost⟩)
        · exact Or.inl
            ⟨hacc, fun s2 hs2 => hmiss s2 (List.mem_cons_of_mem s1 hs2)⟩
        · cases pre with
          | nil =>
            rw [List.nil_append] at hdec
            injection hdec with hs1 hrest
            subst hs1
            rw [hq] at hhit
            exact absurd hhit (by simp)
          | cons p pre2 =>
            injection hdec with hps hrest
            subst hps
            refine Or.inr ⟨pre2, s, post, hrest, hhit, ?_, hpost⟩
            intro s2 hs2 rec2 hrec2
            exact hpre s2 (List.mem_cons_of_mem s1 hs2) rec2 hrec2
    | some r1 =>
      dsimp only
      have hmem1 := sphereHit_t_mem s1 ray tMin closest r1 hq
      rw [ih r1.t (some r1) rec]
      constructor
      · rintro (⟨hacc, hmiss⟩ | ⟨pre, s, post, hdec, hhit, hpre, hpost⟩)
        · obtain rfl := Option.some.inj hacc
          refine Or.inr ⟨[], s1, rest, rfl, hq, by simp, ?_⟩
          intro s2 hs2 rec2 hrec2
          by_contra hlt
          push_neg at hlt
          have hsmall := (sphereHit_restrict s2 ray tMin r1.t closest
            hmem1.2.le rec2).mpr ⟨hrec2, hlt⟩
          rw [hmiss s2 hs2] at hsmall
          exact absurd hsmall (by simp)
        · have hrec_lt : rec.t < r1.t :=
            (sphereHit_t_mem s ray tMin r1.t rec hhit).2
          have hhit_big : sphereHit s ray tMin closest = some rec :=
            ((sphereHit_restrict s ray tMin r1.t closest hmem1.2.le
              rec).mp hhit).1
          refine Or.inr ⟨s1 :: pre, s, post, by rw [hdec]; rfl, hhit_big,
            ?_, ?_⟩
          · intro s2 hs2 rec2 hrec2
            rcases List.mem_cons.mp hs2 with rfl | hmem
            · rw [hq] at hrec2
              obtain rfl := Option.some.inj hrec2
              exact hrec_lt
            · by_cases hcase : rec2.t < r1.t
              · have hsmall := (sphereHit_restrict s2 ray tMin r1.t closest
                  hmem1.2.le rec2).mpr ⟨hrec2, hcase⟩
                exact hpre s2 hmem rec2 hsmall
              · push_neg at hcase
                exact lt_of_lt_of_le hrec_lt hcase
          · intro s2 hs2 rec2 hrec2
            by_cases hcase : rec2.t < r1.t
            · have hsmall := (sphereHit_restrict s2 ray tMin r1.t closest
                hmem1.2.le rec2).mpr ⟨hrec2, hcase⟩
              exact hpost s2 hs2 rec2 hsmall
            · push_neg at hcase
              exact le_of_lt (lt_of_lt_of_le hrec_lt hcase)
      · rintro (⟨hacc, hmiss⟩ | ⟨pre, s, post, hdec, hhit, hpre, hpost⟩)
        · have hh := hmiss s1 (List.mem_cons_self s1 rest)
          rw [hq] at hh
          exact absurd hh (by simp)
        · cases pre with
          | nil =>
            rw [List.nil_append] at hdec
            injection hdec with hs1 hrest
            subst hs1
            subst hrest
            rw [hq] at hhit
            obtain rfl := Option.some.inj hhit
            refine Or.inl ⟨rfl, ?_⟩
            intro s2 hs2
            cases hsc : sphereHit s2 ray tMin r1.t with
            | none => rfl
            | some rec2 =>
              exfalso
              have hbig := (sphereHit_restrict s2 ray tMin r1.t closest
                hmem1.2.le rec2).mp hsc
              have hle := hpost s2 hs2 rec2 hbig.1
              exact absurd hbig.2 (not_lt.mpr hle)
          | cons p pre2 =>
            injection hdec with hps hrest
            subst hps
            have hrec_small : rec.t < r1.t :=
              hpre s1 (List.mem_cons_self s1 pre2) r1 hq
            have hhit_small : sphereHit s ray tMin r1.t = some rec :=
              (sphereHit_restrict s ray tMin r1.t closest hmem1.2.le
                rec).mpr ⟨hhit, hrec_small⟩
            refine Or.inr ⟨pre2, s, post, hrest, hhit_small, ?_, ?_⟩
            · intro s2 hs2 rec2 hrec2
              have hbig := (sphereHit_restrict s2 ray tMin r1.t closest
                hmem1.2.le rec2).mp hrec2
              exact hpre s2 (List.mem_cons_of_mem s1 hs2) rec2 hbig.1
            · intro s2 hs2 rec2 hrec2
              have hbig := (sphereHit_restrict s2 ray tMin r1.t closest
                hmem1.2.le rec2).mp hrec2
              exact hpost s2 hs2 rec2 hbig.1

/-- Claim C2: the scene aggregate hit returns the HitRecord of the nearest
accepted intersection in the original (t_min, t_max) window, with ties in
t broken by iteration order (first-found wins): the result is None exactly
when no primitive hits, and it is some rec exactly when the list splits as
pre ++ s :: post with s hitting at rec, every hit of an earlier primitive
strictly farther than rec.t and every hit of a later primitive no closer
than rec.t.  In particular, for two overlapping spheres along one ray the
record with the smaller t is returned. -/
theorem C2_scene_nearest_hit (items : List Sphere) (ray : Ray)
    (tMin tMax : ℝ) :
    (hittableListHit items ray tMin tMax = none ↔
      ∀ s ∈ items, sphereHit s ray tMin tMax = none) ∧
    (∀ rec : HitRecord, hittableListHit items ray tMin tMax = some rec ↔
      ∃ pre s post, items = pre ++ s :: post ∧
        sphereHit s ray tMin tMax = some rec ∧
        (∀ s2 ∈ pre, ∀ rec2, sphereHit s2 ray tMin tMax = some rec2 →
          rec.t < rec2.t) ∧
        (∀ s2 ∈ post, ∀ rec2, sphereHit s2 ray tMin tMax = some rec2 →
          rec.t ≤ rec2.t)) := by
  refine ⟨hittableListHit_none_iff items ray tMin tMax, ?_⟩
  intro rec
  unfold hittableListHit
  rw [hittableListHitAux_char ray tMin items tMax none rec]
  constructor
  · rintro (⟨hacc, _⟩ | hx)
    · exact absurd hacc (by simp)
    · exact hx
  · intro hx
    exact Or.inr hx

/-- Concrete evaluation: the overlapping sphere centered at (0,0,1) is hit
by zAxisRay at the farther parameter t = 2. -/
theorem sphereHit_fixtureB :
    sphereHit shiftedSphere zAxisRay 0.001 f64MAX =
      some ⟨2, ⟨0, 0, 0⟩, ⟨0, 0, -1⟩, Material.lambertian Vec3.zeros⟩ := by
  unfold sphereHit shiftedSphere zAxisRay f64MAX
  dsimp only
  norm_num [Vec3.dot, Vec3.zeros, Ray.point, Vec3.divScalar, Real.sqrt_one]
  ext <;> norm_num

theorem C2_scene_nearest_hit_witness :
    hittableListHit [unitSphereAtOrigin, shiftedSphere] zAxisRay 0.001
      f64MAX = some zHitRec := by
  refine ((C2_scene_nearest_hit [unitSphereAtOrigin, shiftedSphere] zAxisRay
    0.001 f64MAX).2 zHitRec).mpr
    ⟨[], unitSphereAtOrigin, [shiftedSphere], rfl, sphereHit_fixture,
      by simp, ?_⟩
  intro s2 hs2 rec2 hrec2
  have hs2e : s2 = shiftedSphere := by simpa using hs2
  subst hs2e
  rw [sphereHit_fixtureB] at hrec2
  obtain rfl := Option.some.inj hrec2
  norm_num [zHitRec]

end RT

end
